import Mathlib

/-!
# Verification of `generate_covers.py`

A shallow embedding of the cover-page batch generator:
spreadsheet row → token-filled document → PDF part(s) → optional merge.

Text is modelled as `List Char` (Python `str`), the filesystem as an
association list from path to abstract document content, and the external
DOCX→PDF converter as an oracle supplying, per (row, part), whether the
conversion raises, silently produces nothing, or writes a PDF with some
pages. All definitions are executable and kernel-reducible (fuel-based
recursion where needed), so concrete runs evaluate by `decide`.
-/

namespace Covers

/-! ## Python string primitives (`in`, `replace`, `strip`, `lower`, `endswith`) -/

/-- Python `pat in s` (substring containment) on character lists:
`pat` is a prefix of some suffix of `s`. -/
def containsSub (pat : List Char) : List Char → Bool
  | [] => pat.isEmpty
  | c :: rest => pat.isPrefixOf (c :: rest) || containsSub pat rest

/-- One step bound by fuel: Python `s.replace(pat, val)` — leftmost,
non-overlapping replacement of every occurrence, for a non-empty pattern.
Fuel-based so that the kernel can evaluate it. -/
def replaceAllAux (pat val : List Char) : Nat → List Char → List Char
  | 0, s => s
  | _ + 1, [] => []
  | fuel + 1, c :: rest =>
    if pat ≠ [] ∧ pat.isPrefixOf (c :: rest) then
      val ++ replaceAllAux pat val fuel (rest.drop (pat.length - 1))
    else
      c :: replaceAllAux pat val fuel rest

/-- Python `s.replace(pat, val)` for a non-empty pattern `pat`.
(The program only ever replaces column-name tokens, which are non-empty.) -/
def replaceAll (pat val s : List Char) : List Char :=
  replaceAllAux pat val s.length s

/-- ASCII lowercase of one character (Python `str.lower`, restricted to the
ASCII range used by the program's file names). -/
def lowerChar (c : Char) : Char :=
  if 'A' ≤ c ∧ c ≤ 'Z' then Char.ofNat (c.toNat + 32) else c

/-- Python `s.lower()`. -/
def pyLower (s : String) : String :=
  ⟨s.data.map lowerChar⟩

/-- Whitespace as recognised by Python `str.strip()` (the characters that
occur in spreadsheet cells). -/
def isPyWhitespace (c : Char) : Bool :=
  c = ' ' ∨ c = '\t' ∨ c = '\n' ∨ c = '\r'

/-- Python `s.strip()`. -/
def pyStrip (s : String) : String :=
  ⟨((((s.data.dropWhile isPyWhitespace).reverse).dropWhile isPyWhitespace).reverse)⟩

/-- Python `s.endswith(suffix)`. -/
def pyEndsWith (s suffix : String) : Bool :=
  suffix.data.isSuffixOf s.data

/-! ## Python value stringification (`str(int)`, `str(float)`) -/

/-- The decimal digit character for `d % 10`. -/
def digitChar (d : Nat) : Char :=
  Char.ofNat (48 + d % 10)

/-- Decimal digits of a natural number, most significant first
(fuel-based so the kernel evaluates it; `fuel = n + 1` always suffices). -/
def natDigitsAux : Nat → Nat → List Char
  | 0, _ => []
  | fuel + 1, n =>
    if n < 10 then [digitChar n]
    else natDigitsAux fuel (n / 10) ++ [digitChar (n % 10)]

/-- Python `str(n)` for a natural number. -/
def natStr (n : Nat) : String :=
  ⟨natDigitsAux (n + 1) n⟩

/-- Python `str(n)` for an `int`. -/
def pyIntStr (n : Int) : String :=
  if n < 0 then "-" ++ natStr n.natAbs else natStr n.natAbs

/-- Fractional decimal digits of `num / den` (with `num < den`), up to `fuel`
digits, stopping when the expansion terminates. -/
def fracDigits : Nat → Nat → Nat → List Char
  | 0, _, _ => []
  | fuel + 1, num, den =>
    if num = 0 then []
    else digitChar (num * 10 / den) :: fracDigits fuel (num * 10 % den) den

/-- Python `str(x)` for a float of exact rational value `q`: sign, integer
part, decimal point, fractional digits (`"0"` when the value is integral,
as in `str(3.0) = "3.0"`). Faithful for the short terminating decimals
that occur as spreadsheet cell values. -/
def floatRepr (q : ℚ) : String :=
  (if q.num < 0 then "-" else "")
    ++ natStr (q.num.natAbs / q.den)
    ++ "."
    ++ (if q.num.natAbs % q.den = 0 then "0" else ⟨fracDigits 30 (q.num.natAbs % q.den) q.den⟩)

/-- A spreadsheet cell value as seen through pandas: missing (`NaN`),
an integer, a float (its exact rational value), or a string. -/
inductive Value where
  | nan : Value
  | int : Int → Value
  | float : ℚ → Value
  | str : String → Value
deriving DecidableEq

/-- Python `str(v)` (default string conversion of a cell value). -/
def pyStr : Value → String
  | .nan => "nan"
  | .int n => pyIntStr n
  | .float q => floatRepr q
  | .str s => s

/-- `pd.isna(v)`. -/
def isNA : Value → Bool
  | .nan => true
  | _ => false

/-- The replacement text computed for a cell value in `process_template`
(lines 41–49): `NaN` → empty string; a number equal to its integer
truncation → `str(int(value))`; anything else → `str(value)`. -/
def fillValue : Value → String
  | .nan => ""
  | .int n => pyIntStr n
  | .float q => if q.den = 1 then pyIntStr q.num else floatRepr q
  | .str s => s

/-! ## Paragraphs and `replace_text_in_paragraph` -/

/-- A docx paragraph: the list of its formatted runs' texts. -/
structure Paragraph where
  runs : List (List Char)
deriving DecidableEq

/-- `paragraph.text`: concatenation of all run texts. -/
def Paragraph.text (p : Paragraph) : List Char :=
  p.runs.flatten

/-- The per-run replacement step of the loop at lines 22–25: a run containing
the key has every occurrence replaced, any other run is untouched. -/
def runReplace (key value r : List Char) : List Char :=
  if containsSub key r then replaceAll key value r else r

/-- `replace_text_in_paragraph(paragraph, key, value)` (lines 14–32):
if the key occurs in the paragraph text, replace inside every run that
contains it; if no single run contains it, fall back to replacing in the
whole paragraph text (which collapses the paragraph to a single run). -/
def replace_text_in_paragraph (p : Paragraph) (key value : List Char) : Paragraph :=
  if containsSub key p.text then
    if p.runs.any (fun r => containsSub key r) then
      ⟨p.runs.map (runReplace key value)⟩
    else
      ⟨[replaceAll key value p.text]⟩
  else p

/-! ## The filesystem model

An association list from path to abstract document content (a PDF's pages,
as an abstract list; docx files carry `[]`). `fsSet` overwrites, `fsRemove`
deletes, `fsExists` is `os.path.exists`. -/

/-- Abstract content of a file: a PDF's page list (abstract page ids). -/
abbrev Doc := List Nat

/-- The filesystem: existing paths with their contents. -/
abbrev FS := List (String × Doc)

/-- Content of the file at `p`, if it exists. -/
def fsGet (p : String) : FS → Option Doc
  | [] => none
  | (q, d) :: rest => if p = q then some d else fsGet p rest

/-- Delete the file at `p` (`os.remove`). -/
def fsRemove (p : String) : FS → FS
  | [] => []
  | (q, d) :: rest => if p = q then fsRemove p rest else (q, d) :: fsRemove p rest

/-- Write content `d` at `p`, overwriting. -/
def fsSet (p : String) (d : Doc) (fs : FS) : FS :=
  (p, d) :: fsRemove p fs

/-- `os.path.exists(p)`. -/
def fsExists (p : String) (fs : FS) : Bool :=
  (fsGet p fs).isSome

/-! ## The batch driver (`main`, lines 64–188) -/

/-- Template paths (lines 10–12). -/
def TEMPLATE_MAIN : String := "Annex cover main.docx"

/-- The sub-component template path. -/
def TEMPLATE_SUB : String := "Annex cover sub main.docx"

/-- The description template path. -/
def TEMPLATE_DESC : String := "Annex cover description.docx"

/-- The fields of a spreadsheet row the driver consults: the value of the
`<FILE-NAME>` column and of the `<SUB-COMPONENT>` column (`.nan` when the
cell is empty or the column absent, as `pd.isna` then holds). -/
structure Row where
  fileName : Value
  subComponent : Value

/-- What one call of the external converter `convert(docx, pdf)` does:
raise an exception, return without writing the PDF, or write it. -/
inductive ConvOutcome where
  | raise : ConvOutcome
  | silent : ConvOutcome
  | ok : ConvOutcome
deriving DecidableEq

/-- The environment's behaviour, per row index and part index: whether
`process_template` (docx fill + save) raises, what `convert` does and which
pages the produced PDF has, and whether the PDF merge raises for the row. -/
structure Oracle where
  fill : Nat → Nat → Bool
  conv : Nat → Nat → ConvOutcome
  pages : Nat → Nat → Doc
  merge : Nat → Bool

/-- `temp_cover_{index}_{i}.docx` (line 133). -/
def tempDocx (idx i : Nat) : String :=
  "temp_cover_" ++ natStr idx ++ "_" ++ natStr i ++ ".docx"

/-- `temp_cover_{index}_{i}.pdf` (line 134). -/
def tempPdf (idx i : Nat) : String :=
  "temp_cover_" ++ natStr idx ++ "_" ++ natStr i ++ ".pdf"

/-- The output file name computed at lines 106–108: the trimmed value, with
`".pdf"` appended unless the lowercased name already ends with it. -/
def pdfName (fname : String) : String :=
  if pyEndsWith (pyLower fname) ".pdf" then fname else fname ++ ".pdf"

/-- `os.path.join('PDFs', file_name)` (line 110). -/
def targetPath (fname : String) : String :=
  "PDFs/" ++ pdfName fname

/-- Lines 101–106: the trimmed file name, or `none` when the cell is
missing or trims to the empty string (the row is then skipped). -/
def rowFileName (row : Row) : Option String :=
  match row.fileName with
  | .nan => none
  | v => if pyStrip (pyStr v) = "" then none else some (pyStrip (pyStr v))

/-- Lines 114–120: the ordered template list for a row, decided by the
`<SUB-COMPONENT>` field alone. -/
def templatesFor (row : Row) : List String :=
  match row.subComponent with
  | .nan => [TEMPLATE_MAIN, TEMPLATE_DESC]
  | v =>
    if pyStrip (pyStr v) = "" then [TEMPLATE_MAIN, TEMPLATE_DESC]
    else [TEMPLATE_SUB]

/-- Result of running the template loop (lines 127–153) up to the point
where an exception, if any, escapes to the row's `except` clause:
the filesystem, the `generated_part_pdfs` list, and the exception. -/
structure LoopResult where
  fs : FS
  parts : List String
  err : Option String
deriving DecidableEq

/-- The per-row template loop (lines 127–153) over the enumerated template
list. A missing template skips the part; otherwise the docx is written
(unless filling raises), `convert` runs (possibly raising, possibly writing
the PDF), the PDF is recorded in `generated_part_pdfs` if it now exists,
and the docx is removed. An exception stops the loop with the parts
accumulated so far. -/
def partsLoop (ora : Oracle) (idx : Nat) : List (Nat × String) → FS → List String → LoopResult
  | [], fs, parts => ⟨fs, parts, none⟩
  | (i, tmpl) :: rest, fs, parts =>
    if fsExists tmpl fs then
      if ora.fill idx i then
        ⟨fs, parts, some "fill error"⟩
      else
        let fs₁ := fsSet (tempDocx idx i) [] fs
        match ora.conv idx i with
        | .raise => ⟨fs₁, parts, some "convert error"⟩
        | outcome =>
          let fs₂ := if outcome = .ok then fsSet (tempPdf idx i) (ora.pages idx i) fs₁ else fs₁
          let parts₁ := if fsExists (tempPdf idx i) fs₂ then parts ++ [tempPdf idx i] else parts
          let fs₃ := if fsExists (tempDocx idx i) fs₂ then fsRemove (tempDocx idx i) fs₂ else fs₂
          partsLoop ora idx rest fs₃ parts₁
    else
      partsLoop ora idx rest fs parts

/-- Outcome of one row: skipped on empty file name, output written,
no parts generated, or an exception caught at the row boundary and logged
with the 1-based row number and the message. -/
inductive RowOutcome where
  | skipped : RowOutcome
  | success : String → RowOutcome
  | noParts : RowOutcome
  | failed : Nat → String → RowOutcome
deriving DecidableEq

/-- The merge/rename phase (lines 155–175), reached when the loop raised no
exception: one part is renamed onto the target (after removing a stale
target), several parts are concatenated page-sequentially into the target
by the PDF merger (which may itself raise), zero parts yield a warning. -/
def assemble (ora : Oracle) (idx : Nat) (target : String) (L : LoopResult) : FS × RowOutcome :=
  match L.parts with
  | [] => (L.fs, .noParts)
  | [p] =>
    let fs₁ := if fsExists target L.fs then fsRemove target L.fs else L.fs
    (fsSet target ((fsGet p fs₁).getD []) (fsRemove p fs₁), .success target)
  | _ =>
    if ora.merge idx then (L.fs, .failed (idx + 1) "merge error")
    else
      (fsSet target (((L.parts.map (fun p => (fsGet p L.fs).getD []))).flatten) L.fs,
        .success target)

/-- The `finally` clause (lines 179–186): remove every recorded part PDF
that still exists. -/
def cleanupParts (parts : List String) (fs : FS) : FS :=
  parts.foldl (fun f p => if fsExists p f then fsRemove p f else f) fs

/-- The template loop of one row, started on the row's enumerated template
list with an empty `generated_part_pdfs`. -/
def rowLoop (ora : Oracle) (idx : Nat) (row : Row) (fs : FS) : LoopResult :=
  partsLoop ora idx (templatesFor row).enum fs []

/-- One iteration of the row loop (lines 99–186): resolve the file name
(skip when empty), resolve the templates, run the part loop, then — unless
an exception escaped the loop — assemble the output; finally clean up the
part PDFs. An exception is caught and becomes a `failed` outcome carrying
the 1-based row number. -/
def processRow (ora : Oracle) (idx : Nat) (row : Row) (fs : FS) : FS × RowOutcome :=
  match rowFileName row with
  | none => (fs, .skipped)
  | some fname =>
    let L := rowLoop ora idx row fs
    let step : FS × RowOutcome :=
      match L.err with
      | some m => (L.fs, .failed (idx + 1) m)
      | none => assemble ora idx (targetPath fname) L
    (cleanupParts L.parts step.1, step.2)

/-- The row loop over enumerated rows, threading the filesystem and
collecting one outcome per row. -/
def mainLoop (ora : Oracle) : List (Nat × Row) → FS → FS × List RowOutcome
  | [], fs => (fs, [])
  | (idx, row) :: rest, fs =>
    let r := processRow ora idx row fs
    let rec' := mainLoop ora rest r.1
    (rec'.1, r.2 :: rec'.2)

/-- The whole batch (lines 99–188): process every row of the sheet in
order. -/
def runBatch (ora : Oracle) (rows : List Row) (fs : FS) : FS × List RowOutcome :=
  mainLoop ora rows.enum fs

/-- Is `p` inside the output directory? -/
def inOutDir (p : String) : Bool :=
  "PDFs/".data.isPrefixOf p.data

/-- Modelled from the spec: the output-file naming rule exactly as the
claim words it — "a '.pdf' suffix appended if and only if the value does
not already end with it" (a case-sensitive suffix test, unlike the code's
lowercased test). -/
def specPdfName (fname : String) : String :=
  if pyEndsWith fname ".pdf" then fname else fname ++ ".pdf"

/-! ## Basic lemmas about the filesystem model -/

theorem fsGet_fsRemove (p q : String) (fs : FS) :
    fsGet p (fsRemove q fs) = if p = q then none else fsGet p fs := by
  induction fs with
  | nil => simp [fsRemove, fsGet]
  | cons hd tl ih =>
    obtain ⟨r, d⟩ := hd
    by_cases hqr : q = r <;> by_cases hpr : p = r <;> by_cases hpq : p = q <;>
      simp_all [fsRemove, fsGet]

theorem fsGet_fsSet (p q : String) (d : Doc) (fs : FS) :
    fsGet p (fsSet q d fs) = if p = q then some d else fsGet p fs := by
  by_cases hpq : p = q <;> simp [fsSet, fsGet, hpq, fsGet_fsRemove]

theorem fsExists_fsSet (p q : String) (d : Doc) (fs : FS) :
    fsExists p (fsSet q d fs) = (p = q || fsExists p fs) := by
  by_cases hpq : p = q <;> simp [fsExists, fsGet_fsSet, hpq]

theorem fsExists_fsRemove (p q : String) (fs : FS) :
    fsExists p (fsRemove q fs) = (decide (p ≠ q) && fsExists p fs) := by
  by_cases hpq : p = q <;> simp [fsExists, fsGet_fsRemove, hpq]

/-! ## Shape of the file names used by the driver -/

theorem data_tempDocx (idx i : Nat) :
    (tempDocx idx i).data =
      't' :: ("emp_cover_".data ++ (natStr idx ++ "_" ++ natStr i ++ ".docx").data) := by
  show ("temp_cover_" ++ (natStr idx ++ "_" ++ natStr i ++ ".docx")).data = _
  rw [String.data_append]
  rfl

theorem data_tempPdf (idx i : Nat) :
    (tempPdf idx i).data =
      't' :: ("emp_cover_".data ++ (natStr idx ++ "_" ++ natStr i ++ ".pdf").data) := by
  show ("temp_cover_" ++ (natStr idx ++ "_" ++ natStr i ++ ".pdf")).data = _
  rw [String.data_append]
  rfl

theorem not_inOutDir_tempDocx (idx i : Nat) : inOutDir (tempDocx idx i) = false := by
  unfold inOutDir
  rw [data_tempDocx]
  rfl

theorem not_inOutDir_tempPdf (idx i : Nat) : inOutDir (tempPdf idx i) = false := by
  unfold inOutDir
  rw [data_tempPdf]
  rfl

theorem inOutDir_append (s : String) : inOutDir ("PDFs/" ++ s) = true := by
  unfold inOutDir
  rw [String.data_append]
  induction s.data with
  | nil => rfl
  | cons c cs _ => rfl

theorem inOutDir_targetPath (fname : String) : inOutDir (targetPath fname) = true :=
  inOutDir_append (pdfName fname)

theorem tempPdf_ne_tempDocx (idx i idx' i' : Nat) : tempPdf idx i ≠ tempDocx idx' i' := by
  intro h
  have hx : (tempDocx idx' i').data.reverse.head? = some 'x' := by
    show (("temp_cover_" ++ natStr idx' ++ "_" ++ natStr i') ++ ".docx").data.reverse.head? = _
    rw [String.data_append, List.reverse_append]
    rfl
  have hf : (tempPdf idx i).data.reverse.head? = some 'f' := by
    show (("temp_cover_" ++ natStr idx ++ "_" ++ natStr i) ++ ".pdf").data.reverse.head? = _
    rw [String.data_append, List.reverse_append]
    rfl
  rw [h, hx] at hf
  exact absurd (Option.some.inj hf) (by decide)

theorem tempPdf_ne_of_inOutDir (p : String) (idx i : Nat) (h : inOutDir p = true) :
    p ≠ tempPdf idx i := by
  intro he
  rw [he, not_inOutDir_tempPdf] at h
  exact Bool.false_ne_true h

theorem tempDocx_ne_of_inOutDir (p : String) (idx i : Nat) (h : inOutDir p = true) :
    p ≠ tempDocx idx i := by
  intro he
  rw [he, not_inOutDir_tempDocx] at h
  exact Bool.false_ne_true h

/-! ## `containsSub` and list infixes -/

theorem containsSub_correct (pat s : List Char) :
    containsSub pat s = true ↔ pat <:+: s := by
  induction s with
  | nil =>
    simp [containsSub, List.isEmpty_iff, List.infix_nil]
  | cons c rest ih =>
    simp only [containsSub, Bool.or_eq_true, List.isPrefixOf_iff_prefix, ih,
      List.infix_cons_iff]

theorem containsSub_of_infix_of_containsSub {pat m s : List Char}
    (hm : m <:+: s) (h : containsSub pat m = true) : containsSub pat s = true := by
  rw [containsSub_correct] at h ⊢
  exact h.trans hm

theorem containsSub_flatten_of_mem {pat : List Char} {r : List Char} {l : List (List Char)}
    (hr : r ∈ l) (h : containsSub pat r = true) : containsSub pat l.flatten = true := by
  obtain ⟨s, t, rfl⟩ := List.append_of_mem hr
  refine containsSub_of_infix_of_containsSub ?_ h
  exact ⟨s.flatten, (t.flatten), by simp⟩

/-! ## Step equations for the per-row template loop -/

theorem partsLoop_cons_skip (ora : Oracle) (idx i : Nat) (tmpl : String)
    (rest : List (Nat × String)) (fs : FS) (parts : List String)
    (h : fsExists tmpl fs = false) :
    partsLoop ora idx ((i, tmpl) :: rest) fs parts = partsLoop ora idx rest fs parts := by
  simp [partsLoop, h]

theorem partsLoop_cons_fill (ora : Oracle) (idx i : Nat) (tmpl : String)
    (rest : List (Nat × String)) (fs : FS) (parts : List String)
    (h : fsExists tmpl fs = true) (hf : ora.fill idx i = true) :
    partsLoop ora idx ((i, tmpl) :: rest) fs parts = ⟨fs, parts, some "fill error"⟩ := by
  simp [partsLoop, h, hf]

theorem partsLoop_cons_raise (ora : Oracle) (idx i : Nat) (tmpl : String)
    (rest : List (Nat × String)) (fs : FS) (parts : List String)
    (h : fsExists tmpl fs = true) (hf : ora.fill idx i = false)
    (hc : ora.conv idx i = .raise) :
    partsLoop ora idx ((i, tmpl) :: rest) fs parts =
      ⟨fsSet (tempDocx idx i) [] fs, parts, some "convert error"⟩ := by
  simp [partsLoop, h, hf, hc]

theorem partsLoop_cons_ok (ora : Oracle) (idx i : Nat) (tmpl : String)
    (rest : List (Nat × String)) (fs : FS) (parts : List String)
    (h : fsExists tmpl fs = true) (hf : ora.fill idx i = false)
    (hc : ora.conv idx i = .ok) :
    partsLoop ora idx ((i, tmpl) :: rest) fs parts =
      partsLoop ora idx rest
        (fsRemove (tempDocx idx i)
          (fsSet (tempPdf idx i) (ora.pages idx i) (fsSet (tempDocx idx i) [] fs)))
        (parts ++ [tempPdf idx i]) := by
  simp [partsLoop, h, hf, hc, fsExists_fsSet, tempPdf_ne_tempDocx]

theorem partsLoop_cons_silent (ora : Oracle) (idx i : Nat) (tmpl : String)
    (rest : List (Nat × String)) (fs : FS) (parts : List String)
    (h : fsExists tmpl fs = true) (hf : ora.fill idx i = false)
    (hc : ora.conv idx i = .silent) :
    partsLoop ora idx ((i, tmpl) :: rest) fs parts =
      partsLoop ora idx rest
        (fsRemove (tempDocx idx i) (fsSet (tempDocx idx i) [] fs))
        (if fsExists (tempPdf idx i) fs then parts ++ [tempPdf idx i] else parts) := by
  simp [partsLoop, h, hf, hc, fsExists_fsSet, tempPdf_ne_tempDocx]

/-! ## Invariants of the per-row template loop -/

theorem partsLoop_parts_extend (ora : Oracle) (idx : Nat) :
    ∀ (l : List (Nat × String)) (fs : FS) (parts : List String),
      ∃ new, (partsLoop ora idx l fs parts).parts = parts ++ new := by
  intro l
  induction l with
  | nil => exact fun fs parts => ⟨[], by simp [partsLoop]⟩
  | cons hd rest ih =>
    intro fs parts
    obtain ⟨i, tmpl⟩ := hd
    cases hex : fsExists tmpl fs with
    | false =>
      rw [partsLoop_cons_skip _ _ _ _ _ _ _ hex]
      exact ih fs parts
    | true =>
      cases hfill : ora.fill idx i with
      | true =>
        rw [partsLoop_cons_fill _ _ _ _ _ _ _ hex hfill]
        exact ⟨[], by simp⟩
      | false =>
        cases hconv : ora.conv idx i with
        | raise =>
          rw [partsLoop_cons_raise _ _ _ _ _ _ _ hex hfill hconv]
          exact ⟨[], by simp⟩
        | silent =>
          rw [partsLoop_cons_silent _ _ _ _ _ _ _ hex hfill hconv]
          by_cases hp : fsExists (tempPdf idx i) fs = true
          · rw [if_pos hp]
            obtain ⟨new, hnew⟩ := ih _ (parts ++ [tempPdf idx i])
            exact ⟨tempPdf idx i :: new, by rw [hnew]; simp⟩
          · rw [if_neg hp]
            exact ih _ parts
        | ok =>
          rw [partsLoop_cons_ok _ _ _ _ _ _ _ hex hfill hconv]
          obtain ⟨new, hnew⟩ := ih _ (parts ++ [tempPdf idx i])
          exact ⟨tempPdf idx i :: new, by rw [hnew]; simp⟩

theorem partsLoop_err_none (ora : Oracle) (idx : Nat)
    (hfill : ∀ j, ora.fill idx j = false) (hconv : ∀ j, ora.conv idx j ≠ .raise) :
    ∀ (l : List (Nat × String)) (fs : FS) (parts : List String),
      (partsLoop ora idx l fs parts).err = none := by
  intro l
  induction l with
  | nil => exact fun fs parts => by simp [partsLoop]
  | cons hd rest ih =>
    intro fs parts
    obtain ⟨i, tmpl⟩ := hd
    cases hex : fsExists tmpl fs with
    | false =>
      rw [partsLoop_cons_skip _ _ _ _ _ _ _ hex]
      exact ih fs parts
    | true =>
      cases hconv' : ora.conv idx i with
      | raise => exact absurd hconv' (hconv i)
      | silent =>
        rw [partsLoop_cons_silent _ _ _ _ _ _ _ hex (hfill i) hconv']
        exact ih _ _
      | ok =>
        rw [partsLoop_cons_ok _ _ _ _ _ _ _ hex (hfill i) hconv']
        exact ih _ _

theorem partsLoop_outdir (ora : Oracle) (idx : Nat) :
    ∀ (l : List (Nat × String)) (fs : FS) (parts : List String) (p : String),
      inOutDir p = true →
      fsGet p (partsLoop ora idx l fs parts).fs = fsGet p fs := by
  intro l
  induction l with
  | nil => exact fun fs parts p _ => by simp [partsLoop]
  | cons hd rest ih =>
    intro fs parts p hp
    obtain ⟨i, tmpl⟩ := hd
    have hdocx : p ≠ tempDocx idx i := tempDocx_ne_of_inOutDir p idx i hp
    have hpdf : p ≠ tempPdf idx i := tempPdf_ne_of_inOutDir p idx i hp
    cases hex : fsExists tmpl fs with
    | false =>
      rw [partsLoop_cons_skip _ _ _ _ _ _ _ hex]
      exact ih fs parts p hp
    | true =>
      cases hfill : ora.fill idx i with
      | true =>
        rw [partsLoop_cons_fill _ _ _ _ _ _ _ hex hfill]
      | false =>
        cases hconv : ora.conv idx i with
        | raise =>
          rw [partsLoop_cons_raise _ _ _ _ _ _ _ hex hfill hconv]
          simp [fsGet_fsSet, hdocx]
        | silent =>
          rw [partsLoop_cons_silent _ _ _ _ _ _ _ hex hfill hconv]
          rw [ih _ _ p hp]
          simp [fsGet_fsRemove, fsGet_fsSet, hdocx]
        | ok =>
          rw [partsLoop_cons_ok _ _ _ _ _ _ _ hex hfill hconv]
          rw [ih _ _ p hp]
          simp [fsGet_fsRemove, fsGet_fsSet, hdocx, hpdf]

theorem partsLoop_parts_shape (ora : Oracle) (idx : Nat) :
    ∀ (l : List (Nat × String)) (fs : FS) (parts : List String),
      List.Pairwise (· < ·) (l.map Prod.fst) →
      ∃ is : List Nat, List.Pairwise (· < ·) is ∧ (∀ j ∈ is, j ∈ l.map Prod.fst) ∧
        (partsLoop ora idx l fs parts).parts = parts ++ is.map (tempPdf idx) := by
  intro l
  induction l with
  | nil => exact fun fs parts _ => ⟨[], by simp [partsLoop]⟩
  | cons hd rest ih =>
    intro fs parts hl
    obtain ⟨i, tmpl⟩ := hd
    rw [List.map_cons, List.pairwise_cons] at hl
    obtain ⟨hi, hrest⟩ := hl
    cases hex : fsExists tmpl fs with
    | false =>
      rw [partsLoop_cons_skip _ _ _ _ _ _ _ hex]
      obtain ⟨is, h1, h2, h3⟩ := ih fs parts hrest
      exact ⟨is, h1, fun j hj => List.mem_cons_of_mem _ (h2 j hj), h3⟩
    | true =>
      cases hfill : ora.fill idx i with
      | true =>
        rw [partsLoop_cons_fill _ _ _ _ _ _ _ hex hfill]
        exact ⟨[], by simp⟩
      | false =>
        cases hconv : ora.conv idx i with
        | raise =>
          rw [partsLoop_cons_raise _ _ _ _ _ _ _ hex hfill hconv]
          exact ⟨[], by simp⟩
        | silent =>
          rw [partsLoop_cons_silent _ _ _ _ _ _ _ hex hfill hconv]
          by_cases hp : fsExists (tempPdf idx i) fs = true
          · rw [if_pos hp]
            obtain ⟨is, h1, h2, h3⟩ := ih _ (parts ++ [tempPdf idx i]) hrest
            refine ⟨i :: is, ?_, ?_, ?_⟩
            · exact List.pairwise_cons.mpr ⟨fun j hj => hi j (h2 j hj), h1⟩
            · intro j hj
              rcases List.mem_cons.mp hj with hj | hj
              · exact hj ▸ List.mem_cons_self _ _
              · exact List.mem_cons_of_mem _ (h2 j hj)
            · rw [h3]; simp
          · rw [if_neg hp]
            obtain ⟨is, h1, h2, h3⟩ := ih _ parts hrest
            exact ⟨is, h1, fun j hj => List.mem_cons_of_mem _ (h2 j hj), h3⟩
        | ok =>
          rw [partsLoop_cons_ok _ _ _ _ _ _ _ hex hfill hconv]
          obtain ⟨is, h1, h2, h3⟩ := ih _ (parts ++ [tempPdf idx i]) hrest
          refine ⟨i :: is, ?_, ?_, ?_⟩
          · exact List.pairwise_cons.mpr ⟨fun j hj => hi j (h2 j hj), h1⟩
          · intro j hj
            rcases List.mem_cons.mp hj with hj | hj
            · exact hj ▸ List.mem_cons_self _ _
            · exact List.mem_cons_of_mem _ (h2 j hj)
          · rw [h3]; simp

theorem partsLoop_parts_exist (ora : Oracle) (idx : Nat) :
    ∀ (l : List (Nat × String)) (fs : FS) (parts : List String),
      (∀ p ∈ parts, fsExists p fs = true ∧ ∃ j, p = tempPdf idx j) →
      ∀ p ∈ (partsLoop ora idx l fs parts).parts,
        fsExists p (partsLoop ora idx l fs parts).fs = true ∧ ∃ j, p = tempPdf idx j := by
  intro l
  induction l with
  | nil =>
    intro fs parts hinv p hp
    simp only [partsLoop] at hp ⊢
    exact hinv p hp
  | cons hd rest ih =>
    intro fs parts hinv
    obtain ⟨i, tmpl⟩ := hd
    cases hex : fsExists tmpl fs with
    | false =>
      rw [partsLoop_cons_skip _ _ _ _ _ _ _ hex]
      exact ih fs parts hinv
    | true =>
      cases hfill : ora.fill idx i with
      | true =>
        rw [partsLoop_cons_fill _ _ _ _ _ _ _ hex hfill]
        exact hinv
      | false =>
        cases hconv : ora.conv idx i with
        | raise =>
          rw [partsLoop_cons_raise _ _ _ _ _ _ _ hex hfill hconv]
          intro p hp
          obtain ⟨hpe, j, hj⟩ := hinv p hp
          refine ⟨?_, j, hj⟩
          simp [fsExists_fsSet, hpe]
        | silent =>
          rw [partsLoop_cons_silent _ _ _ _ _ _ _ hex hfill hconv]
          refine ih _ _ ?_
          intro p hp
          by_cases hpmem : p ∈ parts
          · obtain ⟨hpe, j, hj⟩ := hinv p hpmem
            have hpd : p ≠ tempDocx idx i := hj ▸ tempPdf_ne_tempDocx idx j idx i
            refine ⟨?_, j, hj⟩
            simp [fsExists_fsRemove, fsExists_fsSet, hpd, hpe]
          · have hp' : fsExists (tempPdf idx i) fs = true ∧ p = tempPdf idx i := by
              by_cases hc : fsExists (tempPdf idx i) fs = true
              · rw [if_pos hc] at hp
                rcases List.mem_append.mp hp with h | h
                · exact absurd h hpmem
                · exact ⟨hc, List.mem_singleton.mp h⟩
              · rw [if_neg hc] at hp
                exact absurd hp hpmem
            obtain ⟨hc, rfl⟩ := hp'
            refine ⟨?_, i, rfl⟩
            simp [fsExists_fsRemove, fsExists_fsSet, tempPdf_ne_tempDocx, hc]
        | ok =>
          rw [partsLoop_cons_ok _ _ _ _ _ _ _ hex hfill hconv]
          refine ih _ _ ?_
          intro p hp
          rcases List.mem_append.mp hp with hpmem | hpnew
          · obtain ⟨hpe, j, hj⟩ := hinv p hpmem
            have hpd : p ≠ tempDocx idx i := hj ▸ tempPdf_ne_tempDocx idx j idx i
            refine ⟨?_, j, hj⟩
            simp [fsExists_fsRemove, fsExists_fsSet, hpd, hpe]
          · obtain rfl := List.mem_singleton.mp hpnew
            refine ⟨?_, i, rfl⟩
            simp [fsExists_fsRemove, fsExists_fsSet, tempPdf_ne_tempDocx]

theorem partsLoop_renders (ora : Oracle) (idx : Nat)
    (hfill : ∀ j, ora.fill idx j = false) (hconv : ∀ j, ora.conv idx j = .ok) :
    ∀ (l : List (Nat × String)) (fs : FS) (parts : List String) (i : Nat) (t : String),
      (i, t) ∈ l → fsExists t fs = true → (∀ j, t ≠ tempDocx idx j) →
      (partsLoop ora idx l fs parts).parts ≠ [] := by
  intro l
  induction l with
  | nil => intro fs parts i t hmem; exact absurd hmem (List.not_mem_nil _)
  | cons hd rest ih =>
    intro fs parts i t hmem ht htd
    obtain ⟨i0, t0⟩ := hd
    rcases List.mem_cons.mp hmem with heq | hmem'
    · obtain ⟨rfl, rfl⟩ := Prod.mk.injEq .. ▸ heq
      rw [partsLoop_cons_ok _ _ _ _ _ _ _ ht (hfill i) (hconv i)]
      obtain ⟨new, hnew⟩ := partsLoop_parts_extend ora idx rest _ (parts ++ [tempPdf idx i])
      rw [hnew]
      simp
    · cases hex : fsExists t0 fs with
      | false =>
        rw [partsLoop_cons_skip _ _ _ _ _ _ _ hex]
        exact ih fs parts i t hmem' ht htd
      | true =>
        rw [partsLoop_cons_ok _ _ _ _ _ _ _ hex (hfill i0) (hconv i0)]
        refine ih _ _ i t hmem' ?_ htd
        simp [fsExists_fsRemove, fsExists_fsSet, htd i0, ht]

theorem partsLoop_pdf_tracking (ora : Oracle) (idx : Nat) :
    ∀ (l : List (Nat × String)) (fs : FS) (parts : List String) (q : String) (i : Nat),
      q = tempPdf idx i →
      fsExists q (partsLoop ora idx l fs parts).fs = true →
      q ∈ (partsLoop ora idx l fs parts).parts ∨ fsExists q fs = true := by
  intro l
  induction l with
  | nil =>
    intro fs parts q i hq hex
    simp only [partsLoop] at hex
    exact Or.inr hex
  | cons hd rest ih =>
    intro fs parts q i hq hex
    obtain ⟨i0, tmpl⟩ := hd
    have hqd : q ≠ tempDocx idx i0 := hq ▸ tempPdf_ne_tempDocx idx i idx i0
    cases hext : fsExists tmpl fs with
    | false =>
      rw [partsLoop_cons_skip _ _ _ _ _ _ _ hext] at hex ⊢
      exact ih fs parts q i hq hex
    | true =>
      cases hfill : ora.fill idx i0 with
      | true =>
        rw [partsLoop_cons_fill _ _ _ _ _ _ _ hext hfill] at hex ⊢
        exact Or.inr hex
      | false =>
        cases hconv : ora.conv idx i0 with
        | raise =>
          rw [partsLoop_cons_raise _ _ _ _ _ _ _ hext hfill hconv] at hex ⊢
          simp only [fsExists_fsSet, Bool.or_eq_true, decide_eq_true_eq] at hex
          rcases hex with h | h
          · exact absurd h hqd
          · exact Or.inr h
        | silent =>
          rw [partsLoop_cons_silent _ _ _ _ _ _ _ hext hfill hconv] at hex ⊢
          rcases ih _ _ q i hq hex with h | h
          · exact Or.inl h
          · simp only [fsExists_fsRemove, fsExists_fsSet, Bool.and_eq_true,
              Bool.or_eq_true, decide_eq_true_eq] at h
            exact Or.inr (by tauto)
        | ok =>
          rw [partsLoop_cons_ok _ _ _ _ _ _ _ hext hfill hconv] at hex ⊢
          rcases ih _ _ q i hq hex with h | h
          · exact Or.inl h
          · simp only [fsExists_fsRemove, fsExists_fsSet, Bool.and_eq_true,
              Bool.or_eq_true, decide_eq_true_eq] at h
            obtain ⟨-, h⟩ := h
            rcases h with h | h
            · subst h
              obtain ⟨new, hnew⟩ := partsLoop_parts_extend ora idx rest
                (fsRemove (tempDocx idx i0)
                  (fsSet (tempPdf idx i0) (ora.pages idx i0) (fsSet (tempDocx idx i0) [] fs)))
                (parts ++ [tempPdf idx i0])
              rw [hnew]
              exact Or.inl (by simp)
            · rcases h with h | h
              · exact absurd h hqd
              · exact Or.inr h

/-! ## The `finally` cleanup -/

theorem cleanupParts_cons (q : String) (rest : List String) (fs : FS) :
    cleanupParts (q :: rest) fs =
      cleanupParts rest (if fsExists q fs then fsRemove q fs else fs) := by
  simp [cleanupParts, List.foldl]

theorem cleanupParts_monotone :
    ∀ (parts : List String) (fs : FS) (p : String),
      fsExists p (cleanupParts parts fs) = true → fsExists p fs = true := by
  intro parts
  induction parts with
  | nil => exact fun fs p h => h
  | cons q rest ih =>
    intro fs p h
    rw [cleanupParts_cons] at h
    have h' := ih _ p h
    by_cases hq : fsExists q fs = true
    · rw [if_pos hq] at h'
      simp only [fsExists_fsRemove, Bool.and_eq_true, decide_eq_true_eq] at h'
      exact h'.2
    · rwa [if_neg hq] at h'

theorem cleanupParts_removes :
    ∀ (parts : List String) (fs : FS) (p : String),
      p ∈ parts → fsExists p (cleanupParts parts fs) = false := by
  intro parts
  induction parts with
  | nil => intro fs p h; exact absurd h (List.not_mem_nil _)
  | cons q rest ih =>
    intro fs p h
    rcases List.mem_cons.mp h with rfl | hmem
    · rw [cleanupParts_cons]
      by_cases hrest : fsExists p (cleanupParts rest (if fsExists p fs then fsRemove p fs else fs)) = true
      · have h2 := cleanupParts_monotone _ _ _ hrest
        by_cases hq : fsExists p fs = true
        · rw [if_pos hq] at h2
          simp [fsExists_fsRemove] at h2
        · rw [if_neg hq] at h2
          exact absurd h2 hq
      · exact Bool.not_eq_true _ ▸ (by simpa using hrest)
    · rw [cleanupParts_cons]
      exact ih _ p hmem

theorem fsGet_cleanupParts_not_mem :
    ∀ (parts : List String) (fs : FS) (p : String),
      p ∉ parts → fsGet p (cleanupParts parts fs) = fsGet p fs := by
  intro parts
  induction parts with
  | nil => exact fun fs p _ => rfl
  | cons q rest ih =>
    intro fs p h
    have hpq : p ≠ q := fun he => h (he ▸ List.mem_cons_self _ _)
    have hrest : p ∉ rest := fun hm => h (List.mem_cons_of_mem _ hm)
    rw [cleanupParts_cons, ih _ p hrest]
    by_cases hq : fsExists q fs = true
    · rw [if_pos hq, fsGet_fsRemove, if_neg hpq]
    · rw [if_neg hq]

/-! ## The row loop -/

theorem mainLoop_length (ora : Oracle) :
    ∀ (l : List (Nat × Row)) (fs : FS), (mainLoop ora l fs).2.length = l.length := by
  intro l
  induction l with
  | nil => intro fs; rfl
  | cons hd rest ih =>
    intro fs
    obtain ⟨idx, row⟩ := hd
    simp [mainLoop, ih]

theorem mainLoop_getElem (ora : Oracle) :
    ∀ (l : List (Nat × Row)) (fs : FS) (i : Nat) (hi : i < l.length),
      (mainLoop ora l fs).2[i]? =
        some (processRow ora (l.get ⟨i, hi⟩).1 (l.get ⟨i, hi⟩).2
          (mainLoop ora (l.take i) fs).1).2 := by
  intro l
  induction l with
  | nil => intro fs i hi; exact absurd hi (by simp)
  | cons hd rest ih =>
    intro fs i hi
    obtain ⟨idx, row⟩ := hd
    match i with
    | 0 =>
      simp [mainLoop]
    | i + 1 =>
      have hi' : i < rest.length := by simpa using hi
      rw [List.take_succ_cons]
      show ((processRow ora idx row fs).2 :: (mainLoop ora rest (processRow ora idx row fs).1).2)[i + 1]?
        = _
      rw [List.getElem?_cons_succ, ih _ i hi']
      rfl

/-! ## Decimal digits carry no decimal point -/

theorem digitChar_ne_dot (d : Nat) : digitChar d ≠ '.' := by
  intro he
  have hlt : d % 10 < 10 := Nat.mod_lt _ (by omega)
  have h2 : (digitChar d).toNat = 48 + d % 10 := by
    unfold digitChar Char.ofNat
    rw [dif_pos (Or.inl (by omega))]
    rfl
  rw [he, show ('.').toNat = 46 from rfl] at h2
  omega

theorem mem_natDigitsAux_ne_dot :
    ∀ (fuel n : Nat) (c : Char), c ∈ natDigitsAux fuel n → c ≠ '.' := by
  intro fuel
  induction fuel with
  | zero => intro n c h; exact absurd h (List.not_mem_nil _)
  | succ fuel ih =>
    intro n c h
    unfold natDigitsAux at h
    by_cases h10 : n < 10
    · rw [if_pos h10] at h
      obtain rfl := List.mem_singleton.mp h
      exact digitChar_ne_dot n
    · rw [if_neg h10] at h
      rcases List.mem_append.mp h with h | h
      · exact ih _ c h
      · obtain rfl := List.mem_singleton.mp h
        exact digitChar_ne_dot (n % 10)

theorem dot_not_mem_natStr (n : Nat) : '.' ∉ (natStr n).data := by
  intro h
  exact mem_natDigitsAux_ne_dot (n + 1) n '.' h rfl

theorem dot_not_mem_pyIntStr (n : Int) : '.' ∉ (pyIntStr n).data := by
  unfold pyIntStr
  by_cases hn : n < 0
  · rw [if_pos hn, String.data_append]
    intro h
    rcases List.mem_append.mp h with h | h
    · exact absurd (List.mem_singleton.mp h) (by decide)
    · exact dot_not_mem_natStr _ h
  · rw [if_neg hn]
    exact dot_not_mem_natStr _

/-! ## Unfolding `processRow` -/

theorem processRow_none (ora : Oracle) (idx : Nat) (row : Row) (fs : FS)
    (hname : rowFileName row = none) :
    processRow ora idx row fs = (fs, .skipped) := by
  simp [processRow, hname]

theorem processRow_some (ora : Oracle) (idx : Nat) (row : Row) (fs : FS) (fname : String)
    (hname : rowFileName row = some fname) :
    processRow ora idx row fs =
      (cleanupParts (rowLoop ora idx row fs).parts
        (match (rowLoop ora idx row fs).err with
          | some m => ((rowLoop ora idx row fs).fs, RowOutcome.failed (idx + 1) m)
          | none => assemble ora idx (targetPath fname) (rowLoop ora idx row fs)).1,
       (match (rowLoop ora idx row fs).err with
          | some m => ((rowLoop ora idx row fs).fs, RowOutcome.failed (idx + 1) m)
          | none => assemble ora idx (targetPath fname) (rowLoop ora idx row fs)).2) := by
  simp [processRow, hname]

theorem processRow_err (ora : Oracle) (idx : Nat) (row : Row) (fs : FS) (fname m : String)
    (hname : rowFileName row = some fname)
    (herr : (rowLoop ora idx row fs).err = some m) :
    processRow ora idx row fs =
      (cleanupParts (rowLoop ora idx row fs).parts (rowLoop ora idx row fs).fs,
       .failed (idx + 1) m) := by
  rw [processRow_some ora idx row fs fname hname, herr]

theorem processRow_ok (ora : Oracle) (idx : Nat) (row : Row) (fs : FS) (fname : String)
    (hname : rowFileName row = some fname)
    (herr : (rowLoop ora idx row fs).err = none) :
    processRow ora idx row fs =
      (cleanupParts (rowLoop ora idx row fs).parts
        (assemble ora idx (targetPath fname) (rowLoop ora idx row fs)).1,
       (assemble ora idx (targetPath fname) (rowLoop ora idx row fs)).2) := by
  rw [processRow_some ora idx row fs fname hname, herr]

/-! ## More loop corollaries -/

theorem mem_enum_of_mem {α : Type} {t : α} {l : List α} (h : t ∈ l) :
    ∃ i, (i, t) ∈ l.enum := by
  obtain ⟨⟨i, hi⟩, rfl⟩ := List.mem_iff_get.mp h
  refine ⟨i, ?_⟩
  have hi' : i < l.enum.length := by rw [List.enum_length]; exact hi
  have := List.get_mem l.enum i hi'
  rwa [show l.enum.get ⟨i, hi'⟩ = (i, l.get ⟨i, hi⟩) from by
    rw [List.get_eq_getElem, List.get_eq_getElem, List.getElem_enum]] at this

theorem partsLoop_all_missing (ora : Oracle) (idx : Nat) :
    ∀ (l : List (Nat × String)) (fs : FS) (parts : List String),
      (∀ it ∈ l, fsExists it.2 fs = false) →
      partsLoop ora idx l fs parts = ⟨fs, parts, none⟩ := by
  intro l
  induction l with
  | nil => intro fs parts _; rfl
  | cons hd rest ih =>
    intro fs parts hmiss
    obtain ⟨i, tmpl⟩ := hd
    rw [partsLoop_cons_skip _ _ _ _ _ _ _ (hmiss (i, tmpl) (List.mem_cons_self _ _))]
    exact ih fs parts (fun it hit => hmiss it (List.mem_cons_of_mem _ hit))

theorem templatesFor_cases (row : Row) :
    templatesFor row = [TEMPLATE_MAIN, TEMPLATE_DESC] ∨ templatesFor row = [TEMPLATE_SUB] := by
  obtain ⟨fn, sc⟩ := row
  cases sc
  case nan => exact Or.inl rfl
  all_goals
    simp only [templatesFor]
    split
    · exact Or.inl rfl
    · exact Or.inr rfl

theorem template_ne_tempDocx (t : String) (row : Row) (idx j : Nat)
    (ht : t ∈ templatesFor row) : t ≠ tempDocx idx j := by
  have hhead : t.data.head? = some 'A' := by
    rcases templatesFor_cases row with hc | hc <;> rw [hc] at ht
    · rcases List.mem_cons.mp ht with rfl | ht
      · rfl
      · rcases List.mem_cons.mp ht with rfl | ht
        · rfl
        · exact absurd ht (List.not_mem_nil _)
    · rcases List.mem_cons.mp ht with rfl | ht
      · rfl
      · exact absurd ht (List.not_mem_nil _)
  intro he
  rw [he, data_tempDocx] at hhead
  exact absurd (Option.some.inj hhead) (by decide)

theorem rowLoop_parts_spec (ora : Oracle) (idx : Nat) (row : Row) (fs : FS) :
    ∀ p ∈ (rowLoop ora idx row fs).parts,
      fsExists p (rowLoop ora idx row fs).fs = true ∧ ∃ j, p = tempPdf idx j := by
  exact partsLoop_parts_exist ora idx _ fs []
    (fun p hp => absurd hp (List.not_mem_nil _))

theorem partsLoop_docx_tracking (ora : Oracle) (idx : Nat)
    (hconv : ∀ j, ora.conv idx j ≠ .raise) :
    ∀ (l : List (Nat × String)) (fs : FS) (parts : List String) (i : Nat),
      fsExists (tempDocx idx i) (partsLoop ora idx l fs parts).fs = true →
      fsExists (tempDocx idx i) fs = true := by
  intro l
  induction l with
  | nil => intro fs parts i h; exact h
  | cons hd rest ih =>
    intro fs parts i h
    obtain ⟨i0, tmpl⟩ := hd
    cases hex : fsExists tmpl fs with
    | false =>
      rw [partsLoop_cons_skip _ _ _ _ _ _ _ hex] at h
      exact ih fs parts i h
    | true =>
      cases hfill : ora.fill idx i0 with
      | true =>
        rw [partsLoop_cons_fill _ _ _ _ _ _ _ hex hfill] at h
        exact h
      | false =>
        cases hconv' : ora.conv idx i0 with
        | raise => exact absurd hconv' (hconv i0)
        | silent =>
          rw [partsLoop_cons_silent _ _ _ _ _ _ _ hex hfill hconv'] at h
          have h' := ih _ _ i h
          by_cases hs : tempDocx idx i = tempDocx idx i0
          · rw [hs] at h' ⊢
            simp [fsExists_fsRemove] at h'
          · simp only [fsExists_fsRemove, fsExists_fsSet, Bool.and_eq_true,
              Bool.or_eq_true, decide_eq_true_eq] at h'
            rcases h'.2 with h2 | h2
            · exact absurd h2 hs
            · exact h2
        | ok =>
          rw [partsLoop_cons_ok _ _ _ _ _ _ _ hex hfill hconv'] at h
          have h' := ih _ _ i h
          by_cases hs : tempDocx idx i = tempDocx idx i0
          · rw [hs] at h' ⊢
            simp [fsExists_fsRemove] at h'
          · simp only [fsExists_fsRemove, fsExists_fsSet, Bool.and_eq_true,
              Bool.or_eq_true, decide_eq_true_eq] at h'
            rcases h'.2 with h2 | h2
            · exact absurd h2 (Ne.symm (tempPdf_ne_tempDocx idx i0 idx i))
            · rcases h2 with h2 | h2
              · exact absurd h2 hs
              · exact h2

/-! ## The assemble phase -/

theorem assemble_single (ora : Oracle) (idx : Nat) (target p : String) (L : LoopResult)
    (hp : L.parts = [p]) :
    assemble ora idx target L =
      (fsSet target
         ((fsGet p (if fsExists target L.fs then fsRemove target L.fs else L.fs)).getD [])
         (fsRemove p (if fsExists target L.fs then fsRemove target L.fs else L.fs)),
       .success target) := by
  simp only [assemble, hp]

theorem assemble_multi (ora : Oracle) (idx : Nat) (target : String) (L : LoopResult)
    (p1 p2 : String) (rest : List String)
    (hp : L.parts = p1 :: p2 :: rest) (hm : ora.merge idx = false) :
    assemble ora idx target L =
      (fsSet target
         (((p1 :: p2 :: rest).map (fun p => (fsGet p L.fs).getD [])).flatten) L.fs,
       .success target) := by
  simp only [assemble, hp, hm, Bool.false_eq_true, if_false]

theorem processRow_success_outdir (ora : Oracle) (idx : Nat) (row : Row) (fs : FS)
    (fname : String)
    (hname : rowFileName row = some fname)
    (herr : (rowLoop ora idx row fs).err = none)
    (hparts : (rowLoop ora idx row fs).parts ≠ [])
    (hmerge : ora.merge idx = false) :
    (processRow ora idx row fs).2 = .success (targetPath fname)
    ∧ ∀ p, inOutDir p = true →
        (fsExists p (processRow ora idx row fs).1 = true ↔
          (fsExists p fs = true ∨ p = targetPath fname)) := by
  have hspec := rowLoop_parts_spec ora idx row fs
  have houtdir : ∀ q, inOutDir q = true →
      fsGet q (rowLoop ora idx row fs).fs = fsGet q fs :=
    fun q hq => partsLoop_outdir ora idx _ fs [] q hq
  have hnotmem : ∀ p, inOutDir p = true → p ∉ (rowLoop ora idx row fs).parts := by
    intro p hp hmem
    obtain ⟨j, rfl⟩ := (hspec p hmem).2
    rw [not_inOutDir_tempPdf] at hp
    exact Bool.false_ne_true hp
  rw [processRow_ok ora idx row fs fname hname herr]
  cases hp : (rowLoop ora idx row fs).parts with
  | nil => exact absurd hp hparts
  | cons p1 t =>
    obtain ⟨j1, hj1⟩ := (hspec p1 (by rw [hp]; exact List.mem_cons_self _ _)).2
    have hp1tgt : targetPath fname ≠ p1 := by
      rw [hj1]
      exact tempPdf_ne_of_inOutDir _ idx j1 (inOutDir_targetPath fname)
    cases t with
    | nil =>
      rw [assemble_single ora idx (targetPath fname) p1 _ hp]
      constructor
      · rfl
      · intro p hpo
        have hpnotmem := hnotmem p hpo
        rw [hp] at hpnotmem
        have hptemp : p ≠ p1 := fun he => hpnotmem (he ▸ List.mem_cons_self _ _)
        dsimp only
        simp only [fsExists]
        rw [fsGet_cleanupParts_not_mem _ _ _ hpnotmem, fsGet_fsSet]
        by_cases hptgt : p = targetPath fname
        · rw [if_pos hptgt]
          simp [hptgt]
        · rw [if_neg hptgt, fsGet_fsRemove, if_neg hptemp]
          by_cases hext : (fsGet (targetPath fname) (rowLoop ora idx row fs).fs).isSome = true
          · rw [if_pos hext, fsGet_fsRemove, if_neg hptgt, houtdir p hpo]
            simp [fsExists, hptgt]
          · rw [if_neg hext, houtdir p hpo]
            simp [fsExists, hptgt]
    | cons p2 rest =>
      rw [assemble_multi ora idx (targetPath fname) _ p1 p2 rest hp hmerge]
      constructor
      · rfl
      · intro p hpo
        have hpnotmem := hnotmem p hpo
        rw [hp] at hpnotmem
        dsimp only
        simp only [fsExists]
        rw [fsGet_cleanupParts_not_mem _ _ _ hpnotmem, fsGet_fsSet]
        by_cases hptgt : p = targetPath fname
        · rw [if_pos hptgt]
          simp [hptgt]
        · rw [if_neg hptgt, houtdir p hpo]
          simp [fsExists, hptgt]

/-! ## Auxiliary facts for the claims about `replace_text_in_paragraph` -/

theorem replace_not_contains (p : Paragraph) (key value : List Char)
    (h : containsSub key p.text = false) :
    replace_text_in_paragraph p key value = p := by
  unfold replace_text_in_paragraph
  rw [if_neg (by rw [h]; exact Bool.false_ne_true)]

/-! ## The claims -/

/-- Claim C3: for every cell value substituted into a template, a
missing/NaN value renders as the empty string; a numeric value that is
mathematically an integer renders as its integer string, with no decimal
point; every other value renders by default string conversion. -/
theorem claim_c3_value_stringification (q : ℚ) (n : Int) (s : String) :
    fillValue .nan = ""
    ∧ (q.den = 1 → fillValue (.float q) = pyIntStr q.num ∧ '.' ∉ (fillValue (.float q)).data)
    ∧ (q.den ≠ 1 → fillValue (.float q) = floatRepr q)
    ∧ (fillValue (.int n) = pyIntStr n ∧ '.' ∉ (fillValue (.int n)).data)
    ∧ fillValue (.str s) = s := by
  refine ⟨rfl, ?_, ?_, ⟨rfl, dot_not_mem_pyIntStr n⟩, rfl⟩
  · intro h
    have he : fillValue (.float q) = pyIntStr q.num := by
      simp only [fillValue, if_pos h]
    exact ⟨he, he ▸ dot_not_mem_pyIntStr q.num⟩
  · intro h
    simp only [fillValue, if_neg h]

/-- Witness for C3: the numeric value 3 renders as `"3"` (no decimal
point), while 7/2 renders as `"3.5"`. -/
theorem claim_c3_witness :
    fillValue (.float (3 : ℚ)) = "3"
    ∧ fillValue (.float (⟨7, 2, by decide, by decide⟩ : ℚ)) = "3.5" := by
  constructor
  · have h := (claim_c3_value_stringification (3 : ℚ) 0 "").2.1 (by decide)
    rw [h.1]
    decide
  · have h := (claim_c3_value_stringification (⟨7, 2, by decide, by decide⟩ : ℚ) 0 "").2.2.1
      (by decide)
    rw [h]
    decide

/-- Claim C7: when the token occurs in the paragraph text, if some single
run contains it, replacement happens only inside the runs that contain it
(all other runs are untouched and the run structure is preserved); if no
single run contains it, the whole paragraph text is replaced, collapsing
the paragraph to a single run. -/
theorem claim_c7_run_replacement (p : Paragraph) (key value : List Char)
    (hkey : containsSub key p.text = true) :
    ((∃ r ∈ p.runs, containsSub key r = true) →
      (replace_text_in_paragraph p key value).runs.length = p.runs.length
      ∧ ∀ (i : Nat) (hi : i < p.runs.length),
          (replace_text_in_paragraph p key value).runs[i]? =
            some (if containsSub key (p.runs.get ⟨i, hi⟩) = true
                  then replaceAll key value (p.runs.get ⟨i, hi⟩)
                  else p.runs.get ⟨i, hi⟩))
    ∧ ((∀ r ∈ p.runs, containsSub key r = false) →
      (replace_text_in_paragraph p key value).runs = [replaceAll key value p.text]) := by
  constructor
  · intro hin
    have hany : p.runs.any (fun r => containsSub key r) = true := List.any_eq_true.mpr hin
    unfold replace_text_in_paragraph
    rw [if_pos hkey, if_pos hany]
    refine ⟨by simp, ?_⟩
    intro i hi
    simp [runReplace, List.getElem?_map, List.getElem?_eq_getElem hi]
  · intro hall
    have hany : ¬ p.runs.any (fun r => containsSub key r) = true := by
      rw [List.any_eq_false.mpr (fun r hr => by rw [hall r hr]; exact Bool.false_ne_true)]
      exact Bool.false_ne_true
    unfold replace_text_in_paragraph
    rw [if_pos hkey, if_neg hany]

/-- Witness for C7: in the paragraph with runs `"ab"`, `"c"`, the token
`"a"` sits inside the first run and only that run changes; in the
paragraph with runs `"x"`, `"a"`, `"b"`, the token `"ab"` spans a run
boundary and the whole paragraph is collapsed to one replaced run. -/
theorem claim_c7_witness :
    (replace_text_in_paragraph ⟨[['a', 'b'], ['c']]⟩ ['a'] ['z']).runs.length = 2
    ∧ (replace_text_in_paragraph ⟨[['x'], ['a'], ['b']]⟩ ['a', 'b'] ['z']).runs
        = [replaceAll ['a', 'b'] ['z'] (Paragraph.text ⟨[['x'], ['a'], ['b']]⟩)] := by
  constructor
  · exact ((claim_c7_run_replacement ⟨[['a', 'b'], ['c']]⟩ ['a'] ['z'] (by decide)).1
      ⟨['a', 'b'], by decide, by decide⟩).1
  · exact (claim_c7_run_replacement ⟨[['x'], ['a'], ['b']]⟩ ['a', 'b'] ['z'] (by decide)).2
      (by decide)

/-- Counterexample to C9 as stated: substituting `"A"` by `"AA"` in the
one-run paragraph `"A"` leaves further matches of the token, and running
the same substitution again changes the paragraph. -/
theorem claim_c9_counterexample :
    containsSub ['A'] (replace_text_in_paragraph ⟨[['A']]⟩ ['A'] ['A', 'A']).text = true
    ∧ replace_text_in_paragraph (replace_text_in_paragraph ⟨[['A']]⟩ ['A'] ['A', 'A'])
        ['A'] ['A', 'A']
        ≠ replace_text_in_paragraph ⟨[['A']]⟩ ['A'] ['A', 'A'] := by
  constructor
  · decide
  · decide

/-- Amended C9: if, after a substitution, the original token text no
longer occurs in the paragraph text, then re-running the same
substitution leaves the paragraph unchanged. -/
theorem claim_c9_amended (p : Paragraph) (key value : List Char)
    (h : containsSub key (replace_text_in_paragraph p key value).text = false) :
    replace_text_in_paragraph (replace_text_in_paragraph p key value) key value
      = replace_text_in_paragraph p key value :=
  replace_not_contains _ key value h

/-- Witness for the amended C9 at a concrete paragraph. -/
theorem claim_c9_amended_witness :
    replace_text_in_paragraph (replace_text_in_paragraph ⟨[['a', 'b']]⟩ ['a'] ['z']) ['a'] ['z']
      = replace_text_in_paragraph ⟨[['a', 'b']]⟩ ['a'] ['z'] :=
  claim_c9_amended ⟨[['a', 'b']]⟩ ['a'] ['z'] (by decide)

/-- Claim C10: if some run contains the token while another occurrence of
the token spans a run boundary (inside a block `ys` of runs none of which
contains it), the per-run replacement runs, the `ys` runs are left
verbatim, and the paragraph text still contains the token afterwards. -/
theorem claim_c10_split_occurrence_left (key value : List Char)
    (xs ys zs : List (List Char))
    (hin : ∃ r ∈ xs ++ zs, containsSub key r = true)
    (hys : ∀ r ∈ ys, containsSub key r = false)
    (hsplit : containsSub key ys.flatten = true) :
    (replace_text_in_paragraph ⟨xs ++ ys ++ zs⟩ key value).runs
      = xs.map (runReplace key value) ++ ys ++ zs.map (runReplace key value)
    ∧ containsSub key (replace_text_in_paragraph ⟨xs ++ ys ++ zs⟩ key value).text = true := by
  have hysid : ys.map (runReplace key value) = ys := by
    rw [List.map_congr_left (fun r hr => show runReplace key value r = id r from by
      simp [runReplace, hys r hr]), List.map_id]
  have htext : containsSub key (Paragraph.text ⟨xs ++ ys ++ zs⟩) = true := by
    refine containsSub_of_infix_of_containsSub ⟨xs.flatten, zs.flatten, ?_⟩ hsplit
    simp [Paragraph.text]
  have hany : (xs ++ ys ++ zs).any (fun r => containsSub key r) = true := by
    obtain ⟨r, hr, hcr⟩ := hin
    refine List.any_eq_true.mpr ⟨r, ?_, hcr⟩
    rcases List.mem_append.mp hr with h | h
    · exact List.mem_append.mpr (Or.inl (List.mem_append.mpr (Or.inl h)))
    · exact List.mem_append.mpr (Or.inr h)
  have hruns : (replace_text_in_paragraph ⟨xs ++ ys ++ zs⟩ key value).runs
      = xs.map (runReplace key value) ++ ys ++ zs.map (runReplace key value) := by
    unfold replace_text_in_paragraph
    rw [if_pos htext, if_pos hany]
    show (xs ++ ys ++ zs).map (runReplace key value) = _
    rw [List.map_append, List.map_append, hysid]
  refine ⟨hruns, ?_⟩
  show containsSub key (replace_text_in_paragraph ⟨xs ++ ys ++ zs⟩ key value).runs.flatten = true
  rw [hruns, List.flatten_append, List.flatten_append]
  exact containsSub_of_infix_of_containsSub
    ⟨(xs.map (runReplace key value)).flatten, (zs.map (runReplace key value)).flatten,
      by simp⟩ hsplit

/-- Witness for C10: runs `"abc"`, `"a"`, `"b"` with token `"ab"`: the
first run is replaced, the split occurrence across the last two runs is
left as the original token text. -/
theorem claim_c10_witness :
    (replace_text_in_paragraph ⟨[['a', 'b', 'c']] ++ [['a'], ['b']] ++ []⟩ ['a', 'b'] ['z']).runs
      = [['a', 'b', 'c']].map (runReplace ['a', 'b'] ['z']) ++ [['a'], ['b']] ++ []
    ∧ containsSub ['a', 'b']
        (replace_text_in_paragraph ⟨[['a', 'b', 'c']] ++ [['a'], ['b']] ++ []⟩
          ['a', 'b'] ['z']).text = true := by
  have h := claim_c10_split_occurrence_left ['a', 'b'] ['z']
    [['a', 'b', 'c']] [['a'], ['b']] []
    ⟨['a', 'b', 'c'], by decide, by decide⟩ (by decide) (by decide)
  exact ⟨h.1.trans (by decide), h.2⟩

/-- Claim C4: the template list of a row is decided solely by the
sub-component field: missing or trim-empty gives main + description, in
that order; anything else gives the sub template alone. -/
theorem claim_c4_template_selection (r r' : Row) :
    (r.subComponent = r'.subComponent → templatesFor r = templatesFor r')
    ∧ ((isNA r.subComponent = true ∨ pyStrip (pyStr r.subComponent) = "") →
        templatesFor r = [TEMPLATE_MAIN, TEMPLATE_DESC])
    ∧ ((isNA r.subComponent = false ∧ pyStrip (pyStr r.subComponent) ≠ "") →
        templatesFor r = [TEMPLATE_SUB]) := by
  refine ⟨?_, ?_, ?_⟩
  · intro h
    obtain ⟨fn, sc⟩ := r
    obtain ⟨fn', sc'⟩ := r'
    simp only at h
    subst h
    cases sc <;> rfl
  · intro h
    obtain ⟨fn, sc⟩ := r
    simp only at h
    cases sc
    case nan => rfl
    all_goals
      rcases h with h | h
      · exact absurd h (by simp [isNA])
      · simp only [templatesFor]
        rw [if_pos h]
  · intro h
    obtain ⟨fn, sc⟩ := r
    simp only at h
    obtain ⟨h1, h2⟩ := h
    cases sc
    case nan => exact absurd h1 (by simp [isNA])
    all_goals
      simp only [templatesFor]
      rw [if_neg h2]

/-- Witness for C4: a whitespace-only sub-component selects main +
description; a non-empty one selects the sub template. -/
theorem claim_c4_witness :
    templatesFor ⟨.str "a", .str " "⟩ = [TEMPLATE_MAIN, TEMPLATE_DESC]
    ∧ templatesFor ⟨.str "a", .str "x"⟩ = [TEMPLATE_SUB] := by
  constructor
  · exact (claim_c4_template_selection ⟨.str "a", .str " "⟩ ⟨.str "a", .str " "⟩).2.1
      (Or.inr (by decide))
  · exact (claim_c4_template_selection ⟨.str "a", .str "x"⟩ ⟨.str "a", .str "x"⟩).2.2
      ⟨by decide, by decide⟩

/-- Claim C8: a missing template file makes the loop skip that part with
no exception and no state change, and a row whose templates are all
missing produces no output at all: the filesystem is untouched and the
outcome is the no-parts warning. -/
theorem claim_c8_missing_template (ora : Oracle) (idx : Nat) :
    (∀ (i : Nat) (tmpl : String) (rest : List (Nat × String)) (fs : FS) (parts : List String),
      fsExists tmpl fs = false →
      partsLoop ora idx ((i, tmpl) :: rest) fs parts = partsLoop ora idx rest fs parts)
    ∧ (∀ (row : Row) (fs : FS) (fname : String),
      rowFileName row = some fname →
      (rowLoop ora idx row fs).err = none →
      (rowLoop ora idx row fs).parts = [] →
      processRow ora idx row fs = ((rowLoop ora idx row fs).fs, .noParts))
    ∧ (∀ (row : Row) (fs : FS) (fname : String),
      rowFileName row = some fname →
      (∀ t ∈ templatesFor row, fsExists t fs = false) →
      processRow ora idx row fs = (fs, .noParts)) := by
  refine ⟨?_, ?_, ?_⟩
  · exact fun i tmpl rest fs parts h => partsLoop_cons_skip ora idx i tmpl rest fs parts h
  · intro row fs fname hname herr hparts
    rw [processRow_ok ora idx row fs fname hname herr, hparts]
    show (cleanupParts [] (assemble ora idx (targetPath fname) (rowLoop ora idx row fs)).1,
      (assemble ora idx (targetPath fname) (rowLoop ora idx row fs)).2) = _
    simp only [assemble, hparts]
    rfl
  · intro row fs fname hname hmiss
    have hloop : rowLoop ora idx row fs = ⟨fs, [], none⟩ := by
      refine partsLoop_all_missing ora idx _ fs [] ?_
      intro it hit
      obtain ⟨i, t⟩ := it
      have hmem : t ∈ templatesFor row := by
        have := List.mem_enumFrom (by simpa [List.enum] using hit)
        obtain ⟨-, hlt, heq⟩ := this
        rw [heq]
        exact List.getElem_mem _
      exact hmiss t hmem
    rw [processRow_ok ora idx row fs fname hname (by rw [hloop])]
    rw [hloop]
    rfl

/-- Witness for C8: with an empty filesystem (no templates on disk), a row
with file name `"a"` yields no output and leaves the filesystem unchanged. -/
theorem claim_c8_witness :
    processRow ⟨fun _ _ => false, fun _ _ => .ok, fun _ _ => [], fun _ => false⟩ 0
      ⟨.str "a", .nan⟩ [] = ([], .noParts) :=
  (claim_c8_missing_template _ 0).2.2 ⟨.str "a", .nan⟩ [] "a" (by decide)
    (fun t ht => rfl)

/-- Claim C1: the batch produces exactly one outcome per input row; the
outcome of row `i` is that of processing row `i` on the state left by the
previous rows (so no row's failure prevents later rows from being
processed); and when a row's template loop raises, the row's outcome is a
`failed` record carrying the 1-based row number and the message. -/
theorem claim_c1_row_isolation (ora : Oracle) (rows : List Row) (fs : FS) :
    (runBatch ora rows fs).2.length = rows.length
    ∧ (∀ (i : Nat) (hi : i < rows.length),
        (runBatch ora rows fs).2[i]? =
          some (processRow ora i (rows.get ⟨i, hi⟩) (mainLoop ora (rows.enum.take i) fs).1).2)
    ∧ (∀ (idx : Nat) (row : Row) (fs' : FS) (fname m : String),
        rowFileName row = some fname →
        (rowLoop ora idx row fs').err = some m →
        (processRow ora idx row fs').2 = .failed (idx + 1) m)
    ∧ (∀ (idx : Nat) (row : Row) (fs' : FS) (fname p1 p2 : String) (rest : List String),
        rowFileName row = some fname →
        (rowLoop ora idx row fs').err = none →
        (rowLoop ora idx row fs').parts = p1 :: p2 :: rest →
        ora.merge idx = true →
        (processRow ora idx row fs').2 = .failed (idx + 1) "merge error") := by
  refine ⟨?_, ?_, ?_, ?_⟩
  · show (mainLoop ora rows.enum fs).2.length = rows.length
    rw [mainLoop_length, List.enum_length]
  · intro i hi
    have hi' : i < rows.enum.length := by rw [List.enum_length]; exact hi
    have h := mainLoop_getElem ora rows.enum fs i hi'
    rw [show runBatch ora rows fs = mainLoop ora rows.enum fs from rfl, h]
    have hget : rows.enum.get ⟨i, hi'⟩ = (i, rows.get ⟨i, hi⟩) := by
      rw [List.get_eq_getElem, List.get_eq_getElem, List.getElem_enum]
    rw [hget]
  · intro idx row fs' fname m hname herr
    rw [processRow_err ora idx row fs' fname m hname herr]
  · intro idx row fs' fname p1 p2 rest hname herr hparts hm
    rw [processRow_ok ora idx row fs' fname hname herr]
    show (assemble ora idx (targetPath fname) (rowLoop ora idx row fs')).2 = _
    simp only [assemble, hparts, hm, if_true]

/-- Witness for C1: a two-row batch in which the first row's conversion
raises still yields two outcomes, the first being the logged failure. -/
theorem claim_c1_witness :
    (runBatch
        ⟨fun _ _ => false, fun i _ => if i = 0 then .raise else .ok, fun _ _ => [7],
          fun _ => false⟩
        [⟨.str "a", .str "x"⟩, ⟨.str "b", .str "x"⟩]
        [(TEMPLATE_SUB, [])]).2.length = 2
    ∧ (processRow
        ⟨fun _ _ => false, fun i _ => if i = 0 then .raise else .ok, fun _ _ => [7],
          fun _ => false⟩ 0 ⟨.str "a", .str "x"⟩ [(TEMPLATE_SUB, [])]).2
        = .failed 1 "convert error" := by
  constructor
  · exact (claim_c1_row_isolation _ [⟨.str "a", .str "x"⟩, ⟨.str "b", .str "x"⟩]
      [(TEMPLATE_SUB, [])]).1
  · exact (claim_c1_row_isolation _ [] []).2.2.1 0 ⟨.str "a", .str "x"⟩ [(TEMPLATE_SUB, [])]
      "a" "convert error" (by decide) (by decide)

/-- Claim C5: when the row's loop raised no exception and produced parts,
a single part becomes the output by a rename — the target holds exactly
the part's bytes and the part is gone — while two or more parts are
concatenated page-sequentially, in the order the parts were produced
(which follows the template-list order, witnessed by the strictly
increasing part indices), and the intermediate parts are deleted. -/
theorem claim_c5_rename_or_merge (ora : Oracle) (idx : Nat) (row : Row) (fs : FS)
    (fname : String)
    (hname : rowFileName row = some fname)
    (herr : (rowLoop ora idx row fs).err = none) :
    (∀ p, (rowLoop ora idx row fs).parts = [p] →
      (processRow ora idx row fs).2 = .success (targetPath fname)
      ∧ fsGet (targetPath fname) (processRow ora idx row fs).1
          = fsGet p (rowLoop ora idx row fs).fs
      ∧ fsExists p (processRow ora idx row fs).1 = false)
    ∧ (∀ (p1 p2 : String) (rest : List String),
        (rowLoop ora idx row fs).parts = p1 :: p2 :: rest →
        ora.merge idx = false →
      (processRow ora idx row fs).2 = .success (targetPath fname)
      ∧ fsGet (targetPath fname) (processRow ora idx row fs).1
          = some (((rowLoop ora idx row fs).parts.map
              (fun p => (fsGet p (rowLoop ora idx row fs).fs).getD [])).flatten)
      ∧ ∀ p ∈ (rowLoop ora idx row fs).parts,
          fsExists p (processRow ora idx row fs).1 = false)
    ∧ (∃ is : List Nat, List.Pairwise (· < ·) is
        ∧ (rowLoop ora idx row fs).parts = is.map (tempPdf idx)) := by
  have hspec := rowLoop_parts_spec ora idx row fs
  have htgt_out := inOutDir_targetPath fname
  refine ⟨?_, ?_, ?_⟩
  · intro p hp
    obtain ⟨hpex, j, hj⟩ := hspec p (by rw [hp]; exact List.mem_cons_self _ _)
    have hne : p ≠ targetPath fname :=
      fun he => (hj ▸ tempPdf_ne_of_inOutDir _ idx j htgt_out) he.symm
    obtain ⟨dp, hdp⟩ : ∃ d, fsGet p (rowLoop ora idx row fs).fs = some d := by
      rw [fsExists] at hpex
      exact Option.isSome_iff_exists.mp hpex
    rw [processRow_ok ora idx row fs fname hname herr,
      assemble_single ora idx (targetPath fname) p _ hp, hp]
    dsimp only
    have hfs1 : fsGet p
        (if fsExists (targetPath fname) (rowLoop ora idx row fs).fs = true
         then fsRemove (targetPath fname) (rowLoop ora idx row fs).fs
         else (rowLoop ora idx row fs).fs) = some dp := by
      by_cases hext : fsExists (targetPath fname) (rowLoop ora idx row fs).fs = true
      · rw [if_pos hext, fsGet_fsRemove, if_neg hne, hdp]
      · rw [if_neg hext, hdp]
    have hgone : fsExists p
        (fsSet (targetPath fname) ((fsGet p
            (if fsExists (targetPath fname) (rowLoop ora idx row fs).fs = true
             then fsRemove (targetPath fname) (rowLoop ora idx row fs).fs
             else (rowLoop ora idx row fs).fs)).getD [])
          (fsRemove p
            (if fsExists (targetPath fname) (rowLoop ora idx row fs).fs = true
             then fsRemove (targetPath fname) (rowLoop ora idx row fs).fs
             else (rowLoop ora idx row fs).fs))) = false := by
      simp [fsExists, fsGet_fsSet, fsGet_fsRemove, hne]
    rw [cleanupParts_cons, if_neg (by rw [hgone]; exact Bool.false_ne_true)]
    refine ⟨rfl, ?_, ?_⟩
    · show fsGet (targetPath fname) (fsSet (targetPath fname) _ _) = _
      rw [fsGet_fsSet, if_pos rfl, hfs1, hdp]
      rfl
    · show fsExists p (fsSet (targetPath fname) _ _) = false
      exact hgone
  · intro p1 p2 rest hp hmerge
    have hnotmem : targetPath fname ∉ p1 :: p2 :: rest := by
      intro hmem
      obtain ⟨-, j, hj⟩ := hspec (targetPath fname) (by rw [hp]; exact hmem)
      exact tempPdf_ne_of_inOutDir _ idx j htgt_out hj
    rw [processRow_ok ora idx row fs fname hname herr,
      assemble_multi ora idx (targetPath fname) _ p1 p2 rest hp hmerge, hp]
    dsimp only
    refine ⟨rfl, ?_, ?_⟩
    · rw [fsGet_cleanupParts_not_mem _ _ _ hnotmem, fsGet_fsSet, if_pos rfl]
    · intro p hpmem
      exact cleanupParts_removes _ _ p hpmem
  · have hpw : List.Pairwise (· < ·) ((templatesFor row).enum.map Prod.fst) := by
      rw [List.enum_map_fst]
      exact List.pairwise_lt_range _
    obtain ⟨is, h1, h2, h3⟩ := partsLoop_parts_shape ora idx (templatesFor row).enum fs [] hpw
    exact ⟨is, h1, by rw [show (rowLoop ora idx row fs).parts
      = (partsLoop ora idx (templatesFor row).enum fs []).parts from rfl, h3]; simp⟩

theorem assemble_fs_monotone (ora : Oracle) (idx : Nat) (target : String) (L : LoopResult)
    (q : String) (hq : q ≠ target)
    (h : fsExists q (assemble ora idx target L).1 = true) :
    fsExists q L.fs = true := by
  cases hp : L.parts with
  | nil =>
    simp only [assemble, hp] at h
    exact h
  | cons p1 t =>
    cases t with
    | nil =>
      rw [assemble_single ora idx target p1 L hp] at h
      simp only [fsExists_fsSet, fsExists_fsRemove, Bool.or_eq_true, Bool.and_eq_true,
        decide_eq_true_eq] at h
      rcases h with h | h
      · exact absurd h hq
      · by_cases hext : fsExists target L.fs = true
        · rw [if_pos hext] at h
          simp only [fsExists_fsRemove, Bool.and_eq_true, decide_eq_true_eq] at h
          exact h.2.2
        · rw [if_neg hext] at h
          exact h.2
    | cons p2 r =>
      cases hm : ora.merge idx with
      | true =>
        simp only [assemble, hp, hm, if_true] at h
        exact h
      | false =>
        rw [assemble_multi ora idx target L p1 p2 r hp hm] at h
        simp only [fsExists_fsSet, Bool.or_eq_true, decide_eq_true_eq] at h
        rcases h with h | h
        · exact absurd h hq
        · exact h

theorem processRow_fs_to_loop (ora : Oracle) (idx : Nat) (row : Row) (fs : FS)
    (fname q : String)
    (hname : rowFileName row = some fname)
    (hq : q ≠ targetPath fname)
    (h : fsExists q (processRow ora idx row fs).1 = true) :
    fsExists q (rowLoop ora idx row fs).fs = true := by
  rw [processRow_some ora idx row fs fname hname] at h
  dsimp only at h
  have h2 := cleanupParts_monotone _ _ _ h
  cases herr : (rowLoop ora idx row fs).err with
  | some m =>
    rw [herr] at h2
    exact h2
  | none =>
    rw [herr] at h2
    exact assemble_fs_monotone ora idx _ _ q hq h2

/-- Counterexample to C6 as stated: when the external conversion raises,
the intermediate docx file of that part is left behind — it did not exist
before the row and still exists after it. -/
theorem claim_c6_counterexample :
    fsExists "temp_cover_0_0.docx" [(TEMPLATE_SUB, [])] = false
    ∧ fsExists "temp_cover_0_0.docx"
        (processRow ⟨fun _ _ => false, fun _ _ => .raise, fun _ _ => [], fun _ => false⟩ 0
          ⟨.str "a", .str "x"⟩ [(TEMPLATE_SUB, [])]).1 = true := by
  exact ⟨by decide, by decide⟩

/-- Amended C6: on every exit path no new intermediate PDF part survives
the row, and — provided the conversion never raises — no new intermediate
docx survives either (a raising conversion may leak that part's docx). -/
theorem claim_c6_amended_cleanup (ora : Oracle) (idx : Nat) (row : Row) (fs : FS) :
    (∀ i : Nat,
      fsExists (tempPdf idx i) (processRow ora idx row fs).1 = true →
      fsExists (tempPdf idx i) fs = true)
    ∧ ((∀ j, ora.conv idx j ≠ .raise) →
      ∀ i : Nat,
        fsExists (tempDocx idx i) (processRow ora idx row fs).1 = true →
        fsExists (tempDocx idx i) fs = true) := by
  constructor
  · intro i hex
    cases hname : rowFileName row with
    | none =>
      rw [processRow_none ora idx row fs hname] at hex
      exact hex
    | some fname =>
      by_cases hmem : tempPdf idx i ∈ (rowLoop ora idx row fs).parts
      · exfalso
        rw [processRow_some ora idx row fs fname hname] at hex
        dsimp only at hex
        rw [cleanupParts_removes _ _ _ hmem] at hex
        exact Bool.false_ne_true hex
      · have hq : tempPdf idx i ≠ targetPath fname :=
          Ne.symm (tempPdf_ne_of_inOutDir _ idx i (inOutDir_targetPath fname))
        have h2 := processRow_fs_to_loop ora idx row fs fname _ hname hq hex
        rcases partsLoop_pdf_tracking ora idx _ fs [] _ i rfl h2 with h3 | h3
        · exact absurd h3 hmem
        · exact h3
  · intro hnoraise i hex
    cases hname : rowFileName row with
    | none =>
      rw [processRow_none ora idx row fs hname] at hex
      exact hex
    | some fname =>
      have hq : tempDocx idx i ≠ targetPath fname :=
        Ne.symm (tempDocx_ne_of_inOutDir _ idx i (inOutDir_targetPath fname))
      have h2 := processRow_fs_to_loop ora idx row fs fname _ hname hq hex
      exact partsLoop_docx_tracking ora idx hnoraise _ fs [] i h2

/-- Witness for the amended C6: a pre-existing (stale) part file that the
row never touches is still there afterwards, consistent with the theorem's
conclusion. -/
theorem claim_c6_amended_witness :
    fsExists (tempPdf 0 0) [("temp_cover_0_0.pdf", [5])] = true := by
  have h := (claim_c6_amended_cleanup
      ⟨fun _ _ => false, fun _ _ => .ok, fun _ _ => [], fun _ => false⟩
      0 ⟨.nan, .nan⟩ [("temp_cover_0_0.pdf", [5])]).1 0 (by decide)
  exact h

/-- Counterexample to C2 as stated: the code tests the `".pdf"` suffix on
the lowercased name, so the trimmed value `"A.PDF"` gets no suffix — the
output is `PDFs/A.PDF`, not the `PDFs/A.PDF.pdf` that a case-sensitive
reading of the claim prescribes. -/
theorem claim_c2_counterexample :
    specPdfName "A.PDF" = "A.PDF.pdf"
    ∧ pdfName "A.PDF" = "A.PDF"
    ∧ (processRow ⟨fun _ _ => false, fun _ _ => .ok, fun _ _ => [1], fun _ => false⟩ 0
        ⟨.str "A.PDF", .str "x"⟩ [(TEMPLATE_SUB, [])]).2 = .success "PDFs/A.PDF"
    ∧ fsExists "PDFs/A.PDF"
        (processRow ⟨fun _ _ => false, fun _ _ => .ok, fun _ _ => [1], fun _ => false⟩ 0
          ⟨.str "A.PDF", .str "x"⟩ [(TEMPLATE_SUB, [])]).1 = true
    ∧ fsExists "PDFs/A.PDF.pdf"
        (processRow ⟨fun _ _ => false, fun _ _ => .ok, fun _ _ => [1], fun _ => false⟩ 0
          ⟨.str "A.PDF", .str "x"⟩ [(TEMPLATE_SUB, [])]).1 = false := by
  refine ⟨by decide, by decide, by decide, by decide, by decide⟩

/-- Amended C2: assuming the external conversion succeeds for the row's
parts and the merge does not raise, a row with a non-empty trimmed file
name and at least one existing template produces exactly one new file in
the output directory, the target `PDFs/<name>`, where `<name>` is the
trimmed value with `".pdf"` appended unless the lowercased value already
ends with `".pdf"` (a case-insensitive suffix test). -/
theorem claim_c2_amended_output (ora : Oracle) (idx : Nat) (row : Row) (fs : FS)
    (fname : String)
    (hname : rowFileName row = some fname)
    (hfill : ∀ j, ora.fill idx j = false)
    (hconv : ∀ j, ora.conv idx j = .ok)
    (hmerge : ora.merge idx = false)
    (htmpl : ∃ t ∈ templatesFor row, fsExists t fs = true) :
    (processRow ora idx row fs).2 = .success (targetPath fname)
    ∧ targetPath fname = "PDFs/" ++ pdfName fname
    ∧ pdfName fname
        = (if pyEndsWith (pyLower fname) ".pdf" = true then fname else fname ++ ".pdf")
    ∧ (∀ p, inOutDir p = true →
        (fsExists p (processRow ora idx row fs).1 = true ↔
          (fsExists p fs = true ∨ p = targetPath fname))) := by
  have herr : (rowLoop ora idx row fs).err = none :=
    partsLoop_err_none ora idx hfill
      (fun j h => by rw [hconv j] at h; exact ConvOutcome.noConfusion h) _ fs []
  obtain ⟨t, htm, hte⟩ := htmpl
  obtain ⟨i0, hi0⟩ := mem_enum_of_mem htm
  have hparts : (rowLoop ora idx row fs).parts ≠ [] :=
    partsLoop_renders ora idx hfill hconv _ fs [] i0 t hi0 hte
      (fun j => template_ne_tempDocx t row idx j htm)
  have h := processRow_success_outdir ora idx row fs fname hname herr hparts hmerge
  exact ⟨h.1, rfl, rfl, h.2⟩

/-- Witness for the amended C2 at a concrete run: the row `" annexA "`,
empty sub-component, both templates on disk — the output
`PDFs/annexA.pdf` appears. -/
theorem claim_c2_amended_witness :
    (processRow ⟨fun _ _ => false, fun _ _ => .ok, fun _ i => [i], fun _ => false⟩ 0
      ⟨.str " annexA ", .nan⟩ [(TEMPLATE_MAIN, []), (TEMPLATE_DESC, [])]).2
      = .success (targetPath "annexA")
    ∧ fsExists (targetPath "annexA")
        (processRow ⟨fun _ _ => false, fun _ _ => .ok, fun _ i => [i], fun _ => false⟩ 0
          ⟨.str " annexA ", .nan⟩ [(TEMPLATE_MAIN, []), (TEMPLATE_DESC, [])]).1 = true := by
  have h := claim_c2_amended_output
    ⟨fun _ _ => false, fun _ _ => .ok, fun _ i => [i], fun _ => false⟩ 0
    ⟨.str " annexA ", .nan⟩ [(TEMPLATE_MAIN, []), (TEMPLATE_DESC, [])] "annexA"
    (by decide) (fun j => rfl) (fun j => rfl) rfl
    ⟨TEMPLATE_MAIN, by decide, by decide⟩
  refine ⟨h.1, ?_⟩
  rw [(h.2.2.2 (targetPath "annexA") (inOutDir_targetPath _))]
  exact Or.inr rfl

/-- Witness for C5: with one existing template the single part is renamed
onto the target, whose content is exactly the part's pages; with two
templates the two parts are merged in order into `[0], [1]`. -/
theorem claim_c5_witness :
    (processRow ⟨fun _ _ => false, fun _ _ => .ok, fun _ i => [i], fun _ => false⟩ 0
      ⟨.str "b", .str "x"⟩ [(TEMPLATE_SUB, [])]).2 = .success (targetPath "b")
    ∧ fsGet (targetPath "annexA")
        (processRow ⟨fun _ _ => false, fun _ _ => .ok, fun _ i => [i], fun _ => false⟩ 0
          ⟨.str "annexA", .nan⟩
          [(TEMPLATE_MAIN, []), (TEMPLATE_DESC, [])]).1 = some [0, 1] := by
  constructor
  · exact ((claim_c5_rename_or_merge
      ⟨fun _ _ => false, fun _ _ => .ok, fun _ i => [i], fun _ => false⟩ 0
      ⟨.str "b", .str "x"⟩ [(TEMPLATE_SUB, [])] "b" (by decide) (by decide)).1
      "temp_cover_0_0.pdf" (by decide)).1
  · have h := ((claim_c5_rename_or_merge
      ⟨fun _ _ => false, fun _ _ => .ok, fun _ i => [i], fun _ => false⟩ 0
      ⟨.str "annexA", .nan⟩ [(TEMPLATE_MAIN, []), (TEMPLATE_DESC, [])] "annexA"
      (by decide) (by decide)).2.1
      "temp_cover_0_0.pdf" "temp_cover_0_1.pdf" [] (by decide) rfl).2.1
    rw [h]
    decide

end Covers
